import Mathlib

/-!
Verification of the `xtid` identifier library.

An XTID is a fixed 20-byte value: an 8-byte big-endian microsecond timestamp,
a 2-byte big-endian type tag and 10 random payload bytes.  The library also
provides a fixed-width base-62 textual codec (27 characters over the alphabet
`0-9A-Za-z`) that preserves the numeric order of the 160-bit value.

Byte strings are embedded as `List Nat`; a well-formed byte string has every
element below 256.  Go `(value, error)` pairs become `List Nat × Option XErr`.
-/

namespace XTid

/-- Well-formedness of a 20-byte identifier value: exactly 20 bytes, each < 256. -/
def isXTID (l : List Nat) : Prop := l.length = 20 ∧ ∀ b ∈ l, b < 256

instance (l : List Nat) : Decidable (isXTID l) := by
  unfold isXTID; infer_instance

/-- `Nil`: the all-zero identifier (source: `Nil XTID`). -/
def Nil : List Nat := List.replicate 20 0

/-- `Max`: the all-0xFF identifier (source: `Max = XTID{255, ...}`). -/
def MaxId : List Nat := List.replicate 20 255

/-- Source constant `minStringEncoded = "000000000000000000000000000"` as bytes. -/
def minStringEncoded : List Nat := List.replicate 27 48

/-- Source constant `maxStringEncoded = "aWgEPTl1tmebfsQzFP4bxwgy80V"` as bytes. -/
def maxStringEncoded : List Nat :=
  [97, 87, 103, 69, 80, 84, 108, 49, 116, 109, 101, 98, 102, 115, 81, 122,
   70, 80, 52, 98, 120, 119, 103, 121, 56, 48, 86]

/-- The errors of the library (source: `errSize`, `errStrSize`, `errStrValue`,
and the error propagated from the entropy source by `Make`). -/
inductive XErr where
  | errSize
  | errStrSize
  | errStrValue
  | sourceErr
  deriving DecidableEq

/-! ### Fixed-width big-endian digit arithmetic

`digitsMSB B w n` is the width-`w` base-`B` representation of `n`, most
significant digit first; `digitsVal` is its Horner evaluation.  These model
the "explicit N-byte unsigned-integer" arithmetic of the codec and of
`binary.BigEndian`. -/

/-- Width-`w` base-`B` digits of `n`, most significant first. -/
def digitsMSB (B : Nat) : Nat → Nat → List Nat
  | 0, _ => []
  | w + 1, n => n / B ^ w :: digitsMSB B w (n % B ^ w)

/-- Horner evaluation of an msb-first digit list starting from accumulator `acc`. -/
def digitsValFrom (B acc : Nat) (l : List Nat) : Nat :=
  l.foldl (fun a d => a * B + d) acc

/-- Value of an msb-first base-`B` digit list. -/
def digitsVal (B : Nat) (l : List Nat) : Nat := digitsValFrom B 0 l

/-! ### The base-62 codec (modelled from the spec)

The functions `fastAppendEncodeBase62` and `fastDecodeBase62` used by the
source are not part of the provided source files; they are modelled here from
the specification of the Base-62 Big-Integer Codec. -/

/-- Modelled from the spec: the 62-symbol alphabet "digits, then upper-case,
then lower-case letters", i.e. the ASCII code of the symbol for digit `d`
(`'0'..'9'`, `'A'..'Z'`, `'a'..'z'`). -/
def base62Char (d : Nat) : Nat :=
  if d < 10 then 48 + d else if d < 36 then 55 + d else 61 + d

/-- Modelled from the spec: the digit value of an alphabet symbol, `none` for a
character outside the 62-symbol alphabet. -/
def base62Value (c : Nat) : Option Nat :=
  if 48 ≤ c ∧ c ≤ 57 then some (c - 48)
  else if 65 ≤ c ∧ c ≤ 90 then some (c - 55)
  else if 97 ≤ c ∧ c ≤ 122 then some (c - 61)
  else none

/-- Fuel-driven repeated division by 62 emitting remainders least-significant
first; `fuel ≥ n` makes it total. -/
def toBase62RevAux : Nat → Nat → List Nat
  | 0, _ => []
  | fuel + 1, n => if n = 0 then [] else n % 62 :: toBase62RevAux fuel (n / 62)

/-- Modelled from the spec: "repeatedly divides by 62, emitting the symbol for
each remainder from least-significant to most-significant digit". -/
def toBase62Rev (n : Nat) : List Nat := toBase62RevAux n n

/-- Left-pad a digit list with the zero digit to width `w`. -/
def padTo (w : Nat) (l : List Nat) : List Nat :=
  List.replicate (w - l.length) 0 ++ l

/-- Modelled from the spec: `Encode(bytes[20]) -> string[27]` — treat the bytes
as a big-endian integer, take its base-62 digits, reverse, left-pad with the
zero symbol to exactly 27 characters, and map into the alphabet. -/
def encodeBase62 (src : List Nat) : List Nat :=
  (padTo 27 (toBase62Rev (digitsVal 256 src)).reverse).map base62Char

/-- Modelled from the spec: the encoder appends the 27 symbols to a caller
buffer (source signature `fastAppendEncodeBase62(dst, src []byte) []byte`). -/
def fastAppendEncodeBase62 (dst src : List Nat) : List Nat :=
  dst ++ encodeBase62 src

/-- Modelled from the spec: decoding "accumulates digit-by-digit
(`acc = acc*62 + digit`) over a 160-bit-wide accumulator with overflow
detection at each step"; a symbol outside the alphabet or overflow past
160 bits fails. -/
def decodeDigits : List Nat → Nat → Option Nat
  | [], acc => some acc
  | c :: cs, acc =>
    match base62Value c with
    | none => none
    | some d =>
      if acc * 62 + d < 2 ^ 160 then decodeDigits cs (acc * 62 + d) else none

/-- Modelled from the spec: `Decode(string[27]) -> bytes[20]` — the decoded
160-bit integer rendered as 20 big-endian bytes, or failure. -/
def fastDecodeBase62 (src : List Nat) : Option (List Nat) :=
  (decodeDigits src 0).map (digitsMSB 256 20)

/-! ### The identifier API (translated from `xtid.go`) -/

/-- `func (i XTID) Append(b []byte) []byte`. -/
def Append (i b : List Nat) : List Nat := fastAppendEncodeBase62 b i

/-- `func (i XTID) String() string`: `Append` into an empty buffer. -/
def xtidString (i : List Nat) : List Nat := Append i []

/-- `func (i XTID) Timestamp() uint64`: first 8 bytes, big-endian. -/
def Timestamp (i : List Nat) : Nat := digitsVal 256 (i.take 8)

/-- `func (i XTID) Type() uint16`: bytes 8..10, big-endian. -/
def typeField (i : List Nat) : Nat := digitsVal 256 ((i.drop 8).take 2)

/-- `func FromBytes(b []byte) (XTID, error)`. -/
def FromBytes (b : List Nat) : List Nat × Option XErr :=
  if b.length ≠ 20 then (Nil, some .errSize) else (b, none)

/-- `func FromBytesOrNil(b []byte) XTID`. -/
def FromBytesOrNil (b : List Nat) : List Nat :=
  match FromBytes b with
  | (id, none) => id
  | (_, some _) => Nil

/-- `func Parse(s string) (XTID, error)`. -/
def Parse (s : List Nat) : List Nat × Option XErr :=
  if s.length ≠ 27 then (Nil, some .errStrSize)
  else
    match fastDecodeBase62 s with
    | none => (Nil, some .errStrValue)
    | some dst => FromBytes dst

/-- Three-way comparison on naturals (`Ordering`-valued). -/
def cmpN (a b : Nat) : Ordering :=
  if a < b then .lt else if b < a then .gt else .eq

/-- Lexicographic three-way comparison of byte strings, as performed by
`bytes.Compare` / Go string comparison. -/
def listCmp : List Nat → List Nat → Ordering
  | [], [] => .eq
  | [], _ :: _ => .lt
  | _ :: _, [] => .gt
  | a :: as, b :: bs =>
    match cmpN a b with
    | .eq => listCmp as bs
    | o => o

/-- Render an `Ordering` as the `int` returned by `bytes.Compare`. -/
def orderingToInt : Ordering → Int
  | .lt => -1
  | .eq => 0
  | .gt => 1

/-- `func Compare(a, b XTID) int`: `bytes.Compare(a[:], b[:])`. -/
def Compare (a b : List Nat) : Int := orderingToInt (listCmp a b)

/-- Byte-wise `strcmp` of two encoded strings, as an `int`. -/
def strcmp (s t : List Nat) : Int := orderingToInt (listCmp s t)

/-- The outcome of `io.ReadFull(source, buf)` inside `Make`: either the 10
payload bytes, or a failure (carrying whatever bytes were written into the
buffer before the failure). -/
inductive ReadResult where
  | ok (payload : List Nat)
  | fail (readSoFar : List Nat)

/-- `binary.BigEndian.PutUint64`: 8 big-endian bytes. -/
def putUint64BE (n : Nat) : List Nat := digitsMSB 256 8 (n % 2 ^ 64)

/-- `binary.BigEndian.PutUint16`: 2 big-endian bytes. -/
def putUint16BE (n : Nat) : List Nat := digitsMSB 256 2 (n % 2 ^ 16)

/-- `func timeToCorrectedUTCTimestamp(t time.Time) uint64`: the Go conversion
`uint64(t.UnixMicro())` of the microseconds-since-epoch instant `tMicro`. -/
def timeToCorrectedUTCTimestamp (tMicro : Int) : Nat :=
  (tMicro % (2 ^ 64 : Int)).toNat

/-- `func Make(t time.Time, typ uint16) (id XTID, err error)`: on read failure
the identifier is reset to `Nil` ("don't leak random bytes on error");
on success the timestamp and type are stamped over the zero-initialised
array whose payload region holds the bytes read. -/
def Make (r : ReadResult) (tMicro : Int) (typ : Nat) : List Nat × Option XErr :=
  match r with
  | .fail _ => (Nil, some .sourceErr)
  | .ok payload =>
    (putUint64BE (timeToCorrectedUTCTimestamp tMicro) ++ putUint16BE typ ++ payload, none)

/-- `func (i XTID) MarshalText() ([]byte, error)`: `[]byte(i.String())`,
never an error. -/
def MarshalText (i : List Nat) : List Nat := xtidString i

/-- `func (i XTID) MarshalJSON() ([]byte, error)`: returns `i.MarshalText()`. -/
def MarshalJSON (i : List Nat) : List Nat := MarshalText i

/-- `func (i *XTID) UnmarshalText(b []byte) error`: `cur` is the receiver's
current value, kept unchanged when `Parse` fails. -/
def UnmarshalText (cur b : List Nat) : List Nat × Option XErr :=
  match Parse b with
  | (id, none) => (id, none)
  | (_, some e) => (cur, some e)

/-- `func (i *XTID) UnmarshalBinary(b []byte) error`: receiver kept on failure. -/
def UnmarshalBinary (cur b : List Nat) : List Nat × Option XErr :=
  match FromBytes b with
  | (id, none) => (id, none)
  | (_, some e) => (cur, some e)

/-- `func (i *XTID) Set(s string) error`: delegates to `UnmarshalText`. -/
def Set (cur s : List Nat) : List Nat × Option XErr := UnmarshalText cur s

/-- `func (i *XTID) scan(b []byte) error`: dispatch on the input length
(`switch len(b)`: 0, `byteLength`, `stringEncodedLength`, default). -/
def scan (cur b : List Nat) : List Nat × Option XErr :=
  if b.length = 0 then (Nil, none)
  else if b.length = 20 then UnmarshalBinary cur b
  else if b.length = 27 then UnmarshalText cur b
  else (cur, some .errSize)

/-! ### Arithmetic facts about fixed-width digit strings -/

theorem digitsMSB_length (B w n : Nat) : (digitsMSB B w n).length = w := by
  induction w generalizing n with
  | zero => rfl
  | succ w ih => simp [digitsMSB, ih]

theorem pos_of_lt_pow {B w n : Nat} (h : n < B ^ w) (hw : w ≠ 0) : 0 < B := by
  rcases Nat.eq_zero_or_pos B with hB | hB
  · subst hB
    rw [Nat.zero_pow (Nat.pos_of_ne_zero hw)] at h
    omega
  · exact hB

theorem digitsMSB_lt {B : Nat} (hB : 0 < B) :
    ∀ w n, n < B ^ w → ∀ d ∈ digitsMSB B w n, d < B := by
  intro w
  induction w with
  | zero => intro n _ d hd; simp [digitsMSB] at hd
  | succ w ih =>
    intro n hn d hd
    have hpow : 0 < B ^ w := Nat.pos_pow_of_pos w hB
    simp only [digitsMSB, List.mem_cons] at hd
    rcases hd with hd | hd
    · subst hd
      rw [Nat.div_lt_iff_lt_mul hpow]
      calc n < B ^ (w + 1) := hn
        _ = B * B ^ w := by rw [pow_succ]; ring
    · exact ih (n % B ^ w) (Nat.mod_lt _ hpow) d hd

theorem digitsValFrom_cons (B acc d : Nat) (l : List Nat) :
    digitsValFrom B acc (d :: l) = digitsValFrom B (acc * B + d) l := rfl

theorem digitsValFrom_eq (B : Nat) :
    ∀ (l : List Nat) (acc : Nat),
      digitsValFrom B acc l = acc * B ^ l.length + digitsVal B l := by
  intro l
  induction l with
  | nil => intro acc; simp [digitsValFrom, digitsVal]
  | cons d l ih =>
    intro acc
    rw [digitsValFrom_cons, ih (acc * B + d)]
    have h0 : digitsVal B (d :: l) = d * B ^ l.length + digitsVal B l := by
      show digitsValFrom B 0 (d :: l) = _
      rw [digitsValFrom_cons, ih (0 * B + d)]
      ring_nf
    rw [h0]
    simp only [List.length_cons, pow_succ]
    ring

theorem digitsVal_cons (B d : Nat) (l : List Nat) :
    digitsVal B (d :: l) = d * B ^ l.length + digitsVal B l := by
  show digitsValFrom B 0 (d :: l) = _
  rw [digitsValFrom_cons, digitsValFrom_eq]
  ring_nf

theorem digitsVal_lt {B : Nat} (_hB : 0 < B) :
    ∀ l : List Nat, (∀ d ∈ l, d < B) → digitsVal B l < B ^ l.length := by
  intro l
  induction l with
  | nil => simp [digitsVal, digitsValFrom]
  | cons d l ih =>
    intro hd
    have hdB : d < B := hd d (List.mem_cons_self d l)
    have hv : digitsVal B l < B ^ l.length :=
      ih fun x hx => hd x (List.mem_cons_of_mem d hx)
    rw [digitsVal_cons]
    calc d * B ^ l.length + digitsVal B l
        < d * B ^ l.length + B ^ l.length := by omega
      _ = (d + 1) * B ^ l.length := by ring
      _ ≤ B * B ^ l.length := Nat.mul_le_mul_right _ (by omega)
      _ = B ^ (d :: l).length := by rw [List.length_cons, pow_succ]; ring

theorem digitsVal_digitsMSB {B : Nat} :
    ∀ w n, n < B ^ w → digitsVal B (digitsMSB B w n) = n := by
  intro w
  induction w with
  | zero =>
    intro n hn
    rw [pow_zero] at hn
    have hn0 : n = 0 := by omega
    subst hn0; rfl
  | succ w ih =>
    intro n hn
    have hB : 0 < B := pos_of_lt_pow hn (Nat.succ_ne_zero w)
    have hpow : 0 < B ^ w := Nat.pos_pow_of_pos w hB
    rw [digitsMSB, digitsVal_cons, digitsMSB_length,
      ih (n % B ^ w) (Nat.mod_lt _ hpow)]
    have h := Nat.div_add_mod n (B ^ w)
    rw [Nat.mul_comm] at h
    omega

theorem digitsMSB_digitsVal {B : Nat} :
    ∀ l : List Nat, (∀ d ∈ l, d < B) →
      digitsMSB B l.length (digitsVal B l) = l := by
  intro l
  induction l with
  | nil => intro _; rfl
  | cons d l ih =>
    intro hd
    have hB : 0 < B := by
      have := hd d (List.mem_cons_self d l)
      omega
    have hpow : 0 < B ^ l.length := Nat.pos_pow_of_pos _ hB
    have hv : digitsVal B l < B ^ l.length :=
      digitsVal_lt hB l fun x hx => hd x (List.mem_cons_of_mem d hx)
    rw [List.length_cons, digitsMSB, digitsVal_cons]
    have hdiv : (d * B ^ l.length + digitsVal B l) / B ^ l.length = d := by
      rw [Nat.add_comm, Nat.add_mul_div_right _ _ hpow,
        Nat.div_eq_of_lt hv]
      omega
    have hmod : (d * B ^ l.length + digitsVal B l) % B ^ l.length = digitsVal B l := by
      rw [Nat.add_comm, Nat.add_mul_mod_self_right, Nat.mod_eq_of_lt hv]
    rw [hdiv, hmod, ih fun x hx => hd x (List.mem_cons_of_mem d hx)]

/-! ### Three-way comparisons -/

theorem cmpN_eq_lt {a b : Nat} (h : a < b) : cmpN a b = .lt := by
  simp [cmpN, h]

theorem cmpN_eq_gt {a b : Nat} (h : b < a) : cmpN a b = .gt := by
  simp [cmpN, h, Nat.lt_asymm h]

theorem cmpN_eq_eq {a b : Nat} (h : a = b) : cmpN a b = .eq := by
  simp [cmpN, h]

theorem cmpN_self (a : Nat) : cmpN a a = .eq := cmpN_eq_eq rfl

theorem cmpN_congr {a b a' b' : Nat} (h : a < b ↔ a' < b') (h' : b < a ↔ b' < a') :
    cmpN a b = cmpN a' b' := by
  unfold cmpN
  rcases Nat.lt_trichotomy a b with hc | hc | hc
  · rw [if_pos hc, if_pos (h.1 hc)]
  · subst hc
    have h1 : ¬ a' < b' := fun hx => by omega
    have h2 : ¬ b' < a' := fun hx => by omega
    simp [h1, h2]
  · rw [if_neg (Nat.lt_asymm hc), if_pos hc,
      if_neg (fun hx => by omega : ¬ a' < b'), if_pos (h'.1 hc)]

/-- Shifting two naturals by a common additive offset preserves `cmpN`. -/
theorem cmpN_add_left (k a b : Nat) : cmpN (k + a) (k + b) = cmpN a b :=
  cmpN_congr (by omega) (by omega)

/-- The central order lemma: on width-`w` values, lexicographic comparison of
fixed-width msb-first digit strings agrees with numeric comparison. -/
theorem listCmp_digitsMSB {B : Nat} :
    ∀ w n m, n < B ^ w → m < B ^ w →
      listCmp (digitsMSB B w n) (digitsMSB B w m) = cmpN n m := by
  intro w
  induction w with
  | zero =>
    intro n m hn hm
    rw [pow_zero] at hn hm
    have hn0 : n = 0 := by omega
    have hm0 : m = 0 := by omega
    subst hn0; subst hm0
    simp [digitsMSB, listCmp, cmpN_self]
  | succ w ih =>
    intro n m hn hm
    have hB : 0 < B := pos_of_lt_pow hn (Nat.succ_ne_zero w)
    have hpow : 0 < B ^ w := Nat.pos_pow_of_pos w hB
    have hdn := Nat.div_add_mod n (B ^ w)
    have hdm := Nat.div_add_mod m (B ^ w)
    have hrn : n % B ^ w < B ^ w := Nat.mod_lt _ hpow
    have hrm : m % B ^ w < B ^ w := Nat.mod_lt _ hpow
    rw [digitsMSB, digitsMSB]
    rcases Nat.lt_trichotomy (n / B ^ w) (m / B ^ w) with hq | hq | hq
    · have hnm : n < m := by
        calc n = B ^ w * (n / B ^ w) + n % B ^ w := hdn.symm
          _ < B ^ w * (n / B ^ w) + B ^ w := by omega
          _ = B ^ w * (n / B ^ w + 1) := by ring
          _ ≤ B ^ w * (m / B ^ w) := Nat.mul_le_mul_left _ (by omega)
          _ ≤ B ^ w * (m / B ^ w) + m % B ^ w := Nat.le_add_right _ _
          _ = m := hdm
      simp [listCmp, cmpN_eq_lt hq, cmpN_eq_lt hnm]
    · have hmods : listCmp (digitsMSB B w (n % B ^ w)) (digitsMSB B w (m % B ^ w))
          = cmpN (n % B ^ w) (m % B ^ w) := ih _ _ hrn hrm
      have hcmp : cmpN (n % B ^ w) (m % B ^ w) = cmpN n m := by
        have h2 : B ^ w * (n / B ^ w) + m % B ^ w = m := by rw [hq]; exact hdm
        exact cmpN_congr (by omega) (by omega)
      simp [listCmp, cmpN_eq_eq hq, hmods, hcmp]
    · have hnm : m < n := by
        calc m = B ^ w * (m / B ^ w) + m % B ^ w := hdm.symm
          _ < B ^ w * (m / B ^ w) + B ^ w := by omega
          _ = B ^ w * (m / B ^ w + 1) := by ring
          _ ≤ B ^ w * (n / B ^ w) := Nat.mul_le_mul_left _ (by omega)
          _ ≤ B ^ w * (n / B ^ w) + n % B ^ w := Nat.le_add_right _ _
          _ = n := hdn
      simp [listCmp, cmpN_eq_gt hq, cmpN_eq_gt hnm]

/-! ### The base-62 alphabet is order-preserving and invertible -/

theorem base62Char_lt_iff {a b : Nat} : base62Char a < base62Char b ↔ a < b := by
  unfold base62Char
  split_ifs <;> omega

theorem base62Char_injective : Function.Injective base62Char := by
  intro a b h
  unfold base62Char at h
  split_ifs at h <;> omega

theorem cmpN_base62Char (a b : Nat) : cmpN (base62Char a) (base62Char b) = cmpN a b :=
  cmpN_congr base62Char_lt_iff base62Char_lt_iff

theorem listCmp_map_base62Char :
    ∀ ds es : List Nat, listCmp (ds.map base62Char) (es.map base62Char) = listCmp ds es := by
  intro ds
  induction ds with
  | nil => intro es; cases es <;> rfl
  | cons d ds ih =>
    intro es
    cases es with
    | nil => rfl
    | cons e es =>
      simp only [List.map_cons, listCmp, cmpN_base62Char]
      cases cmpN d e <;> simp [ih]

theorem base62Value_base62Char {d : Nat} (hd : d < 62) :
    base62Value (base62Char d) = some d := by
  unfold base62Char
  split_ifs with h1 h2
  · simp only [base62Value]
    rw [if_pos (by omega)]
    congr 1
    omega
  · simp only [base62Value]
    rw [if_neg (by omega), if_pos (by omega)]
    congr 1
    omega
  · simp only [base62Value]
    rw [if_neg (by omega), if_neg (by omega), if_pos (by omega)]
    congr 1
    omega

theorem base62Value_sound {c d : Nat} (h : base62Value c = some d) :
    base62Char d = c ∧ d < 62 := by
  unfold base62Value at h
  split_ifs at h with h1 h2 h3
  · obtain rfl : c - 48 = d := Option.some.inj h
    refine ⟨?_, by omega⟩
    unfold base62Char
    rw [if_pos (by omega)]
    omega
  · obtain rfl : c - 55 = d := Option.some.inj h
    refine ⟨?_, by omega⟩
    unfold base62Char
    rw [if_neg (by omega), if_pos (by omega)]
    omega
  · obtain rfl : c - 61 = d := Option.some.inj h
    refine ⟨?_, by omega⟩
    unfold base62Char
    rw [if_neg (by omega), if_neg (by omega)]
    omega

/-! ### The spec encoder produces fixed-width msb-first digits -/

/-- Width-`w` base-`B` digits of `n`, least significant first. -/
def digitsLSB (B : Nat) : Nat → Nat → List Nat
  | 0, _ => []
  | w + 1, n => n % B :: digitsLSB B w (n / B)

theorem digitsLSB_zero (B : Nat) : ∀ w, digitsLSB B w 0 = List.replicate w 0 := by
  intro w
  induction w with
  | zero => rfl
  | succ w ih => simp [digitsLSB, List.replicate_succ, ih]

theorem toBase62RevAux_congr :
    ∀ f₁ f₂ n, n ≤ f₁ → n ≤ f₂ → toBase62RevAux f₁ n = toBase62RevAux f₂ n := by
  intro f₁
  induction f₁ with
  | zero =>
    intro f₂ n h1 _
    have hn : n = 0 := by omega
    subst hn
    cases f₂ <;> simp [toBase62RevAux]
  | succ f₁ ih =>
    intro f₂ n h1 h2
    by_cases hn : n = 0
    · subst hn; cases f₂ <;> simp [toBase62RevAux]
    · have hf2 : ∃ g, f₂ = g + 1 := ⟨f₂ - 1, by omega⟩
      obtain ⟨g, rfl⟩ := hf2
      have hdiv : n / 62 < n := Nat.div_lt_self (Nat.pos_of_ne_zero hn) (by omega)
      simp only [toBase62RevAux, if_neg hn]
      rw [ih g (n / 62) (by omega) (by omega)]

theorem toBase62Rev_eq (n : Nat) :
    toBase62Rev n = if n = 0 then [] else n % 62 :: toBase62Rev (n / 62) := by
  by_cases hn : n = 0
  · subst hn; rfl
  · have hf : ∃ m, n = m + 1 := ⟨n - 1, by omega⟩
    obtain ⟨m, rfl⟩ := hf
    have hdiv : (m + 1) / 62 < m + 1 := Nat.div_lt_self (by omega) (by omega)
    simp only [toBase62Rev, toBase62RevAux, if_neg hn]
    rw [toBase62RevAux_congr m ((m + 1) / 62) ((m + 1) / 62) (by omega) le_rfl]

theorem toBase62Rev_pad :
    ∀ w n, n < 62 ^ w →
      toBase62Rev n ++ List.replicate (w - (toBase62Rev n).length) 0 = digitsLSB 62 w n := by
  intro w
  induction w with
  | zero =>
    intro n hn
    rw [pow_zero] at hn
    have hn0 : n = 0 := by omega
    subst hn0
    simp [toBase62Rev, toBase62RevAux, digitsLSB]
  | succ w ih =>
    intro n hn
    by_cases h0 : n = 0
    · subst h0
      rw [toBase62Rev_eq, digitsLSB_zero]
      simp
    · rw [toBase62Rev_eq, if_neg h0]
      have hdivlt : n / 62 < 62 ^ w := by
        rw [Nat.div_lt_iff_lt_mul (by omega : (0:Nat) < 62)]
        calc n < 62 ^ (w + 1) := hn
          _ = 62 ^ w * 62 := pow_succ 62 w
      have := ih (n / 62) hdivlt
      simp only [digitsLSB, List.length_cons, List.cons_append]
      rw [show w + 1 - ((toBase62Rev (n / 62)).length + 1)
          = w - (toBase62Rev (n / 62)).length from by omega]
      rw [this]

theorem digitsMSB_succ_last {B : Nat} (hB : 0 < B) :
    ∀ w n, n < B ^ (w + 1) →
      digitsMSB B (w + 1) n = digitsMSB B w (n / B) ++ [n % B] := by
  intro w
  induction w with
  | zero =>
    intro n hn
    rw [pow_one] at hn
    simp [digitsMSB, Nat.mod_eq_of_lt hn, Nat.div_eq_of_lt hn]
  | succ w ih =>
    intro n hn
    have hpow : 0 < B ^ (w + 1) := Nat.pos_pow_of_pos _ hB
    have hmodlt : n % B ^ (w + 1) < B ^ (w + 1) := Nat.mod_lt _ hpow
    have hrec := ih (n % B ^ (w + 1)) hmodlt
    show n / B ^ (w + 1) :: digitsMSB B (w + 1) (n % B ^ (w + 1))
        = (n / B / B ^ w :: digitsMSB B w (n / B % B ^ w)) ++ [n % B]
    rw [hrec]
    have h1 : n / B ^ (w + 1) = n / B / B ^ w := by
      rw [Nat.div_div_eq_div_mul, ← pow_succ']
    have h2 : n % B ^ (w + 1) / B = n / B % B ^ w := by
      rw [pow_succ']
      exact Nat.mod_mul_right_div_self n B (B ^ w)
    have h3 : n % B ^ (w + 1) % B = n % B :=
      Nat.mod_mod_of_dvd n (dvd_pow_self B (Nat.succ_ne_zero w))
    rw [h1, h2, h3]
    rfl

theorem digitsLSB_reverse {B : Nat} (hB : 0 < B) :
    ∀ w n, n < B ^ w → (digitsLSB B w n).reverse = digitsMSB B w n := by
  intro w
  induction w with
  | zero => intro n _; rfl
  | succ w ih =>
    intro n hn
    have hdivlt : n / B < B ^ w := by
      rw [Nat.div_lt_iff_lt_mul hB]
      calc n < B ^ (w + 1) := hn
        _ = B ^ w * B := pow_succ B w
    rw [digitsLSB, List.reverse_cons, ih (n / B) hdivlt, digitsMSB_succ_last hB w n hn]

/-- The modelled encoder, characterised: on an in-range value it is exactly the
width-27 msb-first base-62 digit string, mapped through the alphabet. -/
theorem padTo_toBase62Rev {n : Nat} (hn : n < 62 ^ 27) :
    padTo 27 (toBase62Rev n).reverse = digitsMSB 62 27 n := by
  unfold padTo
  rw [List.length_reverse]
  have hrepl : (List.replicate (27 - (toBase62Rev n).length) 0).reverse
      = List.replicate (27 - (toBase62Rev n).length) (0 : Nat) := List.reverse_replicate _ _
  rw [← hrepl, ← List.reverse_append, toBase62Rev_pad 27 n hn,
    digitsLSB_reverse (by omega) 27 n hn]

/-! ### Encoding characterisation for well-formed identifiers -/

theorem pow_256_20 : (256 : Nat) ^ 20 = 2 ^ 160 := by decide

theorem pow_lt_62_27 : (2 : Nat) ^ 160 < 62 ^ 27 := by decide

theorem digitsVal_lt_2_160 {i : List Nat} (h : isXTID i) :
    digitsVal 256 i < 2 ^ 160 := by
  obtain ⟨hlen, hbytes⟩ := h
  have := digitsVal_lt (by omega : (0:Nat) < 256) i hbytes
  rw [hlen, pow_256_20] at this
  exact this

theorem xtidString_eq {i : List Nat} (h : isXTID i) :
    xtidString i = (digitsMSB 62 27 (digitsVal 256 i)).map base62Char := by
  have hv : digitsVal 256 i < 62 ^ 27 :=
    lt_trans (digitsVal_lt_2_160 h) pow_lt_62_27
  show [] ++ encodeBase62 i = _
  rw [List.nil_append]
  unfold encodeBase62
  rw [padTo_toBase62Rev hv]

theorem xtidString_length {i : List Nat} (h : isXTID i) :
    (xtidString i).length = 27 := by
  rw [xtidString_eq h, List.length_map, digitsMSB_length]

/-! ### Decoding characterisation -/

theorem le_digitsValFrom (B : Nat) (hB : 1 ≤ B) :
    ∀ (l : List Nat) (acc : Nat), acc ≤ digitsValFrom B acc l := by
  intro l
  induction l with
  | nil => intro acc; exact le_rfl
  | cons d l ih =>
    intro acc
    rw [digitsValFrom_cons]
    calc acc = acc * 1 := (Nat.mul_one acc).symm
      _ ≤ acc * B := Nat.mul_le_mul_left acc hB
      _ ≤ acc * B + d := Nat.le_add_right _ _
      _ ≤ digitsValFrom B (acc * B + d) l := ih _

/-- Decoding the image of the encoder: in-range digit strings decode to their
Horner value. -/
theorem decodeDigits_map :
    ∀ (ds : List Nat) (acc : Nat), (∀ d ∈ ds, d < 62) →
      digitsValFrom 62 acc ds < 2 ^ 160 →
      decodeDigits (ds.map base62Char) acc = some (digitsValFrom 62 acc ds) := by
  intro ds
  induction ds with
  | nil => intro acc _ _; rfl
  | cons d ds ih =>
    intro acc hd hlt
    have hd62 : d < 62 := hd d (List.mem_cons_self d ds)
    have hstep : acc * 62 + d ≤ digitsValFrom 62 acc (d :: ds) := by
      rw [digitsValFrom_cons]
      exact le_digitsValFrom 62 (by omega) ds _
    simp only [List.map_cons, decodeDigits, base62Value_base62Char hd62]
    rw [if_pos (by omega)]
    rw [digitsValFrom_cons] at hlt ⊢
    exact ih _ (fun x hx => hd x (List.mem_cons_of_mem d hx)) hlt

/-- Any successful decode arises from a valid digit string whose Horner value
is the result; a non-empty successful decode is below `2 ^ 160`. -/
theorem decodeDigits_sound :
    ∀ (s : List Nat) (acc n : Nat), decodeDigits s acc = some n →
      ∃ ds : List Nat, s = ds.map base62Char ∧ (∀ d ∈ ds, d < 62) ∧
        digitsValFrom 62 acc ds = n ∧ (s ≠ [] → n < 2 ^ 160) := by
  intro s
  induction s with
  | nil =>
    intro acc n h
    refine ⟨[], rfl, by simp, ?_, by simp⟩
    simpa [decodeDigits] using h
  | cons c cs ih =>
    intro acc n h
    simp only [decodeDigits] at h
    rcases hv : base62Value c with _ | d
    · rw [hv] at h
      dsimp only at h
      exact Option.noConfusion h
    · rw [hv] at h
      dsimp only at h
      by_cases hov : acc * 62 + d < 2 ^ 160
      · rw [if_pos hov] at h
        obtain ⟨hc, hd62⟩ := base62Value_sound hv
        obtain ⟨ds, hmap, hds, hval, hbound⟩ := ih (acc * 62 + d) n h
        refine ⟨d :: ds, ?_, ?_, ?_, fun _ => ?_⟩
        · rw [List.map_cons, hc, hmap]
        · intro x hx
          rcases List.mem_cons.1 hx with rfl | hx
          · exact hd62
          · exact hds x hx
        · rw [digitsValFrom_cons]
          exact hval
        · by_cases hcs : cs = []
          · subst hcs
            have hds0 : ds = [] := by
              have h' := hmap.symm
              rwa [List.map_eq_nil_iff] at h'
            subst hds0
            have hn : acc * 62 + d = n := hval
            omega
          · exact hbound hcs
      · rw [if_neg hov] at h
        exact absurd h (by simp)

/-! ### Parsing: round trips and failure shape -/

theorem fromBytes_of_len {b : List Nat} (h : b.length = 20) :
    FromBytes b = (b, none) := by
  unfold FromBytes
  rw [if_neg (by omega)]

theorem fromBytes_of_ne {b : List Nat} (h : b.length ≠ 20) :
    FromBytes b = (Nil, some .errSize) := by
  unfold FromBytes
  rw [if_pos h]

theorem parse_of_ne {s : List Nat} (h : s.length ≠ 27) :
    Parse s = (Nil, some .errStrSize) := by
  unfold Parse
  rw [if_pos h]

theorem digitsMSB_isXTID {n : Nat} (hn : n < 2 ^ 160) :
    isXTID (digitsMSB 256 20 n) := by
  refine ⟨digitsMSB_length 256 20 n, ?_⟩
  exact digitsMSB_lt (by omega) 20 n (by rw [pow_256_20]; exact hn)

/-- Binary round trip: parsing the encoding of a well-formed identifier
returns exactly its bytes, with no error. -/
theorem parse_xtidString {b : List Nat} (h : isXTID b) :
    Parse (xtidString b) = (b, none) := by
  have hv160 : digitsVal 256 b < 2 ^ 160 := digitsVal_lt_2_160 h
  have hv : digitsVal 256 b < 62 ^ 27 := lt_trans hv160 pow_lt_62_27
  have hds : ∀ d ∈ digitsMSB 62 27 (digitsVal 256 b), d < 62 :=
    digitsMSB_lt (by omega) 27 _ hv
  have hlen27 : (xtidString b).length = 27 := xtidString_length h
  have hvalds : digitsValFrom 62 0 (digitsMSB 62 27 (digitsVal 256 b)) = digitsVal 256 b := by
    show digitsVal 62 (digitsMSB 62 27 (digitsVal 256 b)) = digitsVal 256 b
    exact digitsVal_digitsMSB 27 _ hv
  have hdec : decodeDigits (xtidString b) 0 = some (digitsVal 256 b) := by
    rw [xtidString_eq h, decodeDigits_map _ 0 hds (by rw [hvalds]; exact hv160), hvalds]
  have hb : digitsMSB 256 20 (digitsVal 256 b) = b := by
    have h20 := digitsMSB_digitsVal b h.2
    rwa [h.1] at h20
  unfold Parse
  rw [if_neg (by omega)]
  unfold fastDecodeBase62
  rw [hdec]
  show FromBytes (digitsMSB 256 20 (digitsVal 256 b)) = (b, none)
  rw [hb, fromBytes_of_len h.1]

/-- Text round trip: re-encoding any successfully parsed string returns the
string itself; moreover the parsed identifier is well formed. -/
theorem xtidString_parse {s id : List Nat} (h : Parse s = (id, none)) :
    xtidString id = s ∧ isXTID id := by
  unfold Parse at h
  by_cases hlen : s.length = 27
  · rw [if_neg (by omega)] at h
    rcases hfd : fastDecodeBase62 s with _ | dst
    · rw [hfd] at h
      exact absurd (congrArg Prod.snd h) (by simp)
    · rw [hfd] at h
      unfold fastDecodeBase62 at hfd
      rcases hdd : decodeDigits s 0 with _ | n
      · rw [hdd] at hfd; exact Option.noConfusion hfd
      · rw [hdd] at hfd
        have hdst : dst = digitsMSB 256 20 n := (Option.some.inj hfd).symm
        subst hdst
        dsimp only at h
        have hfb := fromBytes_of_len (digitsMSB_length 256 20 n)
        rw [hfb] at h
        have hid : id = digitsMSB 256 20 n := (Prod.mk.injEq _ _ _ _ ▸ h).1.symm
        subst hid
        obtain ⟨ds, hmap, hds62, hval, hbound⟩ := decodeDigits_sound s 0 n hdd
        have hsne : s ≠ [] := by
          intro h0
          rw [h0] at hlen
          exact absurd hlen (by simp)
        have hn160 : n < 2 ^ 160 := hbound hsne
        have hX : isXTID (digitsMSB 256 20 n) := digitsMSB_isXTID hn160
        refine ⟨?_, hX⟩
        have hvid : digitsVal 256 (digitsMSB 256 20 n) = n :=
          digitsVal_digitsMSB 20 n (by rw [pow_256_20]; exact hn160)
        rw [xtidString_eq hX, hvid]
        have hdslen : ds.length = 27 := by
          have hl := congrArg List.length hmap
          rw [List.length_map, hlen] at hl
          exact hl.symm
        have hdseq : digitsMSB 62 27 n = ds := by
          have h27 := digitsMSB_digitsVal ds hds62
          rw [hdslen] at h27
          have : digitsVal 62 ds = n := hval
          rwa [this] at h27
        rw [hdseq, ← hmap]
  · rw [if_pos hlen] at h
    exact absurd (congrArg Prod.snd h) (by simp)

/-- `Parse` either succeeds or yields `Nil` with some error. -/
theorem parse_shape (s : List Nat) :
    (∃ id, Parse s = (id, none)) ∨ (∃ e, Parse s = (Nil, some e)) := by
  unfold Parse
  by_cases hlen : s.length = 27
  · rw [if_neg (by omega)]
    rcases fastDecodeBase62 s with _ | dst
    · exact Or.inr ⟨.errStrValue, rfl⟩
    · unfold FromBytes
      dsimp only
      by_cases hd : dst.length = 20
      · rw [if_neg (by omega)]
        exact Or.inl ⟨dst, rfl⟩
      · rw [if_pos hd]
        exact Or.inr ⟨.errSize, rfl⟩
  · rw [if_pos hlen]
    exact Or.inr ⟨.errStrSize, rfl⟩

/-! ### Order preservation between binary and string forms -/

theorem cmpN_gt_inv {a b : Nat} (h : cmpN a b = .gt) : b < a := by
  unfold cmpN at h
  split_ifs at h with h1 h2
  all_goals simp_all

theorem listCmp_bytes_val {a b : List Nat} (ha : isXTID a) (hb : isXTID b) :
    listCmp a b = cmpN (digitsVal 256 a) (digitsVal 256 b) := by
  have ha' := digitsMSB_digitsVal a ha.2
  have hb' := digitsMSB_digitsVal b hb.2
  rw [ha.1] at ha'
  rw [hb.1] at hb'
  have hva := digitsVal_lt (by omega : (0:Nat) < 256) a ha.2
  have hvb := digitsVal_lt (by omega : (0:Nat) < 256) b hb.2
  rw [ha.1] at hva
  rw [hb.1] at hvb
  conv_lhs => rw [← ha', ← hb']
  exact listCmp_digitsMSB 20 _ _ hva hvb

theorem listCmp_string_val {a b : List Nat} (ha : isXTID a) (hb : isXTID b) :
    listCmp (xtidString a) (xtidString b) = cmpN (digitsVal 256 a) (digitsVal 256 b) := by
  rw [xtidString_eq ha, xtidString_eq hb, listCmp_map_base62Char]
  exact listCmp_digitsMSB 27 _ _
    (lt_trans (digitsVal_lt_2_160 ha) pow_lt_62_27)
    (lt_trans (digitsVal_lt_2_160 hb) pow_lt_62_27)

/-- The source constant `maxStringEncoded` is the encoding of the maximal
160-bit value. -/
theorem maxStringEncoded_eq :
    maxStringEncoded = (digitsMSB 62 27 (2 ^ 160 - 1)).map base62Char := by decide

/-! ### Mutating unmarshal operations -/

theorem unmarshalText_ok {b id : List Nat} (cur : List Nat) (h : Parse b = (id, none)) :
    UnmarshalText cur b = (id, none) := by
  unfold UnmarshalText
  rw [h]

theorem unmarshalText_err {b x : List Nat} {e : XErr} (cur : List Nat)
    (h : Parse b = (x, some e)) : UnmarshalText cur b = (cur, some e) := by
  unfold UnmarshalText
  rw [h]

theorem unmarshalBinary_ok {b id : List Nat} (cur : List Nat) (h : FromBytes b = (id, none)) :
    UnmarshalBinary cur b = (id, none) := by
  unfold UnmarshalBinary
  rw [h]

theorem unmarshalBinary_err {b x : List Nat} {e : XErr} (cur : List Nat)
    (h : FromBytes b = (x, some e)) : UnmarshalBinary cur b = (cur, some e) := by
  unfold UnmarshalBinary
  rw [h]

/-! ### Overflow rejection: strings above the canonical maximum fail decode -/

theorem decodeDigits_none_of_large {s : List Nat} {ds : List Nat}
    (hmap : s = ds.map base62Char) (hne : s ≠ [])
    (hval : 2 ^ 160 ≤ digitsVal 62 ds) :
    decodeDigits s 0 = none := by
  rcases hd : decodeDigits s 0 with _ | n
  · rfl
  · obtain ⟨ds', hmap', _, hval', hbound⟩ := decodeDigits_sound s 0 n hd
    have hinj : ds' = ds := by
      apply (List.map_injective_iff.2 base62Char_injective)
      rw [← hmap, ← hmap']
    subst hinj
    have hn : digitsVal 62 ds' = n := hval'
    have := hbound hne
    omega

/-- Parsing a 27-character string over the valid alphabet that is
lexicographically above `maxStringEncoded` fails with the value-range error
and returns `Nil`. -/
theorem parse_above_max {s : List Nat} (h27 : s.length = 27)
    (halpha : ∀ c ∈ s, (base62Value c).isSome)
    (hgt : listCmp s maxStringEncoded = .gt) :
    Parse s = (Nil, some .errStrValue) := by
  -- recover the digit string underlying `s`
  have hpoint : ∀ c ∈ s, base62Char ((base62Value c).getD 0) = c ∧ (base62Value c).getD 0 < 62 := by
    intro c hc
    rcases hv : base62Value c with _ | d
    · have hs := halpha c hc
      rw [hv] at hs
      exact absurd hs (by simp)
    · obtain ⟨h1, h2⟩ := base62Value_sound hv
      simpa [hv] using ⟨h1, h2⟩
  set ds : List Nat := s.map (fun c => (base62Value c).getD 0) with hds_def
  have hmap : s = ds.map base62Char := by
    rw [hds_def, List.map_map]
    have : ∀ c ∈ s, (base62Char ∘ fun c => (base62Value c).getD 0) c = id c := by
      intro c hc
      exact (hpoint c hc).1
    rw [List.map_congr_left this, List.map_id]
  have hds62 : ∀ d ∈ ds, d < 62 := by
    intro d hd
    rw [hds_def] at hd
    obtain ⟨c, hc, rfl⟩ := List.mem_map.1 hd
    exact (hpoint c hc).2
  have hdslen : ds.length = 27 := by rw [hds_def, List.length_map, h27]
  -- compare digit values through the fixed-width representation
  have hmaxlt : 2 ^ 160 - 1 < 62 ^ 27 := by
    have := pow_lt_62_27
    omega
  have hdsval : digitsVal 62 ds < 62 ^ 27 := by
    have := digitsVal_lt (by omega : (0:Nat) < 62) ds hds62
    rwa [hdslen] at this
  have hcmp : listCmp ds (digitsMSB 62 27 (2 ^ 160 - 1)) = cmpN (digitsVal 62 ds) (2 ^ 160 - 1) := by
    conv_lhs => rw [show ds = digitsMSB 62 27 (digitsVal 62 ds) from by
      have := digitsMSB_digitsVal ds hds62
      rw [hdslen] at this
      exact this.symm]
    exact listCmp_digitsMSB 27 _ _ hdsval hmaxlt
  have hgt' : cmpN (digitsVal 62 ds) (2 ^ 160 - 1) = .gt := by
    rw [← hcmp, ← listCmp_map_base62Char, ← hmap, ← maxStringEncoded_eq]
    exact hgt
  have hlarge : 2 ^ 160 ≤ digitsVal 62 ds := by
    have := cmpN_gt_inv hgt'
    omega
  have hsne : s ≠ [] := by
    intro h0
    rw [h0] at h27
    exact absurd h27 (by simp)
  have hnone : decodeDigits s 0 = none := decodeDigits_none_of_large hmap hsne hlarge
  unfold Parse
  rw [if_neg (by omega)]
  unfold fastDecodeBase62
  rw [hnone]
  rfl

/-! ### The claims -/

/-- C1: for every pair of well-formed 20-byte identifiers, `Compare(a,b)`
equals the byte-wise comparison of their string encodings, and string order
matches numeric order of the underlying 160-bit big-endian integer. -/
theorem claim1_compare_preserves_string_order (a b : List Nat)
    (ha : isXTID a) (hb : isXTID b) :
    Compare a b = strcmp (xtidString a) (xtidString b) ∧
    listCmp (xtidString a) (xtidString b) = cmpN (digitsVal 256 a) (digitsVal 256 b) := by
  have h1 := listCmp_bytes_val ha hb
  have h2 := listCmp_string_val ha hb
  exact ⟨by unfold Compare strcmp; rw [h1, h2], h2⟩

/-- Witness for C1 at the two sentinel identifiers. -/
theorem claim1_witness :
    Compare Nil MaxId = strcmp (xtidString Nil) (xtidString MaxId) ∧
    listCmp (xtidString Nil) (xtidString MaxId) = cmpN (digitsVal 256 Nil) (digitsVal 256 MaxId) :=
  claim1_compare_preserves_string_order Nil MaxId (by decide) (by decide)

/-- C2: decoding the encoding of any 20-byte value returns that value, and
encoding the decoding of any successfully parsed 27-character string returns
the string. -/
theorem claim2_roundtrip :
    (∀ b : List Nat, isXTID b → Parse (xtidString (FromBytesOrNil b)) = (b, none)) ∧
    (∀ s id : List Nat, Parse s = (id, none) → xtidString id = s) := by
  constructor
  · intro b hb
    have hfb : FromBytesOrNil b = b := by
      unfold FromBytesOrNil
      rw [fromBytes_of_len hb.1]
    rw [hfb]
    exact parse_xtidString hb
  · intro s id h
    exact (xtidString_parse h).1

/-- Witness for C2 at the all-0xFF value and the all-zero string. -/
theorem claim2_witness :
    Parse (xtidString (FromBytesOrNil MaxId)) = (MaxId, none) ∧
    xtidString (Parse minStringEncoded).1 = minStringEncoded :=
  ⟨claim2_roundtrip.1 MaxId (by decide),
   claim2_roundtrip.2 minStringEncoded (Parse minStringEncoded).1 (by decide)⟩

/-- C3: any 27-character string over the valid alphabet lexicographically
greater than the canonical maximum string fails `Parse` with the value-range
error and yields `Nil`. -/
theorem claim3_overflow_rejection (s : List Nat) (h27 : s.length = 27)
    (halpha : ∀ c ∈ s, (base62Value c).isSome)
    (hgt : listCmp s maxStringEncoded = .gt) :
    Parse s = (Nil, some .errStrValue) :=
  parse_above_max h27 halpha hgt

/-- Witness for C3 at the lexicographic successor of the maximum string
(`...80V` with the final `V` replaced by `W`). -/
theorem claim3_witness :
    Parse (maxStringEncoded.take 26 ++ [87]) = (Nil, some .errStrValue) :=
  claim3_overflow_rejection (maxStringEncoded.take 26 ++ [87])
    (by decide) (by decide) (by decide)

/-- C4: `Nil` encodes to 27 zero-symbols and that string parses back to
`Nil`; the all-0xFF identifier encodes to the canonical maximum string and
that string parses back to it. -/
theorem claim4_boundary_min_max :
    xtidString Nil = minStringEncoded ∧ Parse minStringEncoded = (Nil, none) ∧
    xtidString MaxId = maxStringEncoded ∧ Parse maxStringEncoded = (MaxId, none) := by
  decide

/-- C5: when the entropy read fails, `Make` returns exactly the `Nil`
identifier with the propagated error, regardless of the timestamp, the type
and whatever bytes were read before the failure. -/
theorem claim5_make_fail_nil (t : Int) (typ : Nat) (readSoFar : List Nat) :
    Make (.fail readSoFar) t typ = (Nil, some .sourceErr) := rfl

/-- C6: `Parse` rejects every string whose length is not 27 with the
string-size error and `Nil`; `FromBytes` rejects every byte slice whose
length is not 20 with the size error and `Nil`. -/
theorem claim6_length_rejection :
    (∀ s : List Nat, s.length ≠ 27 → Parse s = (Nil, some .errStrSize)) ∧
    (∀ b : List Nat, b.length ≠ 20 → FromBytes b = (Nil, some .errSize)) :=
  ⟨fun _ h => parse_of_ne h, fun _ h => fromBytes_of_ne h⟩

/-- Witness for C6 at a one-byte input. -/
theorem claim6_witness :
    Parse [48] = (Nil, some XErr.errStrSize) ∧
    FromBytes [48] = (Nil, some XErr.errSize) :=
  ⟨claim6_length_rejection.1 [48] (by decide),
   claim6_length_rejection.2 [48] (by decide)⟩

/-- C7: a successful `Make(t, typ)` yields no error, a `Timestamp()` equal to
the Go conversion `uint64(t.UnixMicro())` and a `Type()` equal to `typ`. -/
theorem claim7_make_fields (t : Int) (typ : Nat) (payload : List Nat)
    (_hp : payload.length = 10) (htyp : typ < 2 ^ 16) :
    (Make (.ok payload) t typ).2 = none ∧
    Timestamp (Make (.ok payload) t typ).1 = timeToCorrectedUTCTimestamp t ∧
    typeField (Make (.ok payload) t typ).1 = typ := by
  have hts : timeToCorrectedUTCTimestamp t < 2 ^ 64 := by
    unfold timeToCorrectedUTCTimestamp
    omega
  have hmod : timeToCorrectedUTCTimestamp t % 2 ^ 64 = timeToCorrectedUTCTimestamp t :=
    Nat.mod_eq_of_lt hts
  have hmodt : typ % 2 ^ 16 = typ := Nat.mod_eq_of_lt htyp
  have hlen8 : (putUint64BE (timeToCorrectedUTCTimestamp t)).length = 8 :=
    digitsMSB_length 256 8 _
  have hlen2 : (putUint16BE typ).length = 2 := digitsMSB_length 256 2 _
  refine ⟨rfl, ?_, ?_⟩
  · show Timestamp ((putUint64BE (timeToCorrectedUTCTimestamp t) ++ putUint16BE typ) ++ payload)
        = timeToCorrectedUTCTimestamp t
    unfold Timestamp
    rw [List.append_assoc, List.take_left' hlen8]
    unfold putUint64BE
    rw [hmod]
    exact digitsVal_digitsMSB 8 _ (by rw [show (256:Nat) ^ 8 = 2 ^ 64 from by decide]; exact hts)
  · show typeField ((putUint64BE (timeToCorrectedUTCTimestamp t) ++ putUint16BE typ) ++ payload)
        = typ
    unfold typeField
    rw [List.append_assoc, List.drop_left' hlen8, List.take_left' hlen2]
    unfold putUint16BE
    rw [hmodt]
    exact digitsVal_digitsMSB 2 _ (by rw [show (256:Nat) ^ 2 = 2 ^ 16 from by decide]; exact htyp)

/-- Witness for C7 at `2024-01-01T00:00:00.000001Z` (microsecond instant
1704067200000001) and type 7. -/
theorem claim7_witness :
    (Make (.ok (List.replicate 10 9)) 1704067200000001 7).2 = none ∧
    Timestamp (Make (.ok (List.replicate 10 9)) 1704067200000001 7).1
      = timeToCorrectedUTCTimestamp 1704067200000001 ∧
    typeField (Make (.ok (List.replicate 10 9)) 1704067200000001 7).1 = 7 :=
  claim7_make_fields 1704067200000001 7 (List.replicate 10 9) (by decide) (by decide)

/-- C8 (evaluation at the failing input): `MarshalJSON` of the `Nil`
identifier is the bare 27-character text — 27 bytes, none of which is a
quotation mark (ASCII 34), so the output is not a quoted string. -/
theorem claim8_marshalJSON_unquoted :
    MarshalJSON Nil = minStringEncoded ∧
    (MarshalJSON Nil).length = 27 ∧
    (∀ c ∈ MarshalJSON Nil, c ≠ 34) := by
  decide

/-- C9: `scan` maps length 0 to `Nil` without error, length 20 through the
binary parse (always succeeding on 20 bytes), length 27 through the text
parse (propagating its outcome, keeping the receiver on failure), and any
other length to the size error. -/
theorem claim9_scan_dispatch (cur b : List Nat) :
    (b.length = 0 → scan cur b = (Nil, none)) ∧
    (b.length = 20 → scan cur b = (b, none)) ∧
    (b.length = 27 →
      ((∃ id, Parse b = (id, none) ∧ scan cur b = (id, none)) ∨
       (∃ e, Parse b = (Nil, some e) ∧ scan cur b = (cur, some e)))) ∧
    (b.length ≠ 0 → b.length ≠ 20 → b.length ≠ 27 → scan cur b = (cur, some .errSize)) := by
  refine ⟨?_, ?_, ?_, ?_⟩
  · intro h
    unfold scan
    rw [if_pos h]
  · intro h
    unfold scan
    rw [if_neg (by omega), if_pos h]
    exact unmarshalBinary_ok cur (fromBytes_of_len h)
  · intro h
    have hsc : scan cur b = UnmarshalText cur b := by
      unfold scan
      rw [if_neg (by omega), if_neg (by omega), if_pos h]
    rcases parse_shape b with ⟨id, hid⟩ | ⟨e, he⟩
    · exact Or.inl ⟨id, hid, by rw [hsc]; exact unmarshalText_ok cur hid⟩
    · exact Or.inr ⟨e, he, by rw [hsc]; exact unmarshalText_err cur he⟩
  · intro h0 h20 h27
    unfold scan
    rw [if_neg h0, if_neg h20, if_neg h27]

/-- Witness for C9, one instance per branch. -/
theorem claim9_witness :
    scan MaxId [] = (Nil, none) ∧
    scan Nil MaxId = (MaxId, none) ∧
    ((∃ id, Parse minStringEncoded = (id, none) ∧ scan MaxId minStringEncoded = (id, none)) ∨
     (∃ e, Parse minStringEncoded = (Nil, some e) ∧ scan MaxId minStringEncoded = (MaxId, some e))) ∧
    scan MaxId [48] = (MaxId, some XErr.errSize) :=
  ⟨(claim9_scan_dispatch MaxId []).1 rfl,
   (claim9_scan_dispatch Nil MaxId).2.1 (by decide),
   (claim9_scan_dispatch MaxId minStringEncoded).2.2.1 (by decide),
   (claim9_scan_dispatch MaxId [48]).2.2.2 (by decide) (by decide) (by decide)⟩

/-- C10: `UnmarshalText` (and `Set`) and `UnmarshalBinary` return the parse
error and leave the receiver unchanged on invalid input, and overwrite the
receiver exactly when parsing succeeds. -/
theorem claim10_unmarshal_receiver (cur b s : List Nat) :
    (∀ x e, Parse b = (x, some e) → UnmarshalText cur b = (cur, some e)) ∧
    (∀ id, Parse b = (id, none) → UnmarshalText cur b = (id, none)) ∧
    Set cur s = UnmarshalText cur s ∧
    (∀ x e, FromBytes b = (x, some e) → UnmarshalBinary cur b = (cur, some e)) ∧
    (∀ id, FromBytes b = (id, none) → UnmarshalBinary cur b = (id, none)) :=
  ⟨fun _ _ h => unmarshalText_err cur h,
   fun _ h => unmarshalText_ok cur h,
   rfl,
   fun _ _ h => unmarshalBinary_err cur h,
   fun _ h => unmarshalBinary_ok cur h⟩

/-- Witness for C10: failures keep the receiver (`MaxId`), successes
overwrite it. -/
theorem claim10_witness :
    UnmarshalText MaxId [48] = (MaxId, some XErr.errStrSize) ∧
    UnmarshalText MaxId minStringEncoded = (Nil, none) ∧
    Set MaxId minStringEncoded = UnmarshalText MaxId minStringEncoded ∧
    UnmarshalBinary MaxId [48] = (MaxId, some XErr.errSize) ∧
    UnmarshalBinary MaxId Nil = (Nil, none) :=
  ⟨(claim10_unmarshal_receiver MaxId [48] minStringEncoded).1 Nil XErr.errStrSize (by decide),
   (claim10_unmarshal_receiver MaxId minStringEncoded minStringEncoded).2.1 Nil (by decide),
   (claim10_unmarshal_receiver MaxId minStringEncoded minStringEncoded).2.2.1,
   (claim10_unmarshal_receiver MaxId [48] minStringEncoded).2.2.2.1 Nil XErr.errSize (by decide),
   (claim10_unmarshal_receiver MaxId Nil minStringEncoded).2.2.2.2 Nil (by decide)⟩

end XTid
